import Mathlib

/-!
Verification of the `reusing-vec` crate: `ReusingVec` (src/lib.rs) and
`ReusingQueue` (src/queue.rs).  The backing `Vec<T>` is modelled as `List T`,
`usize` markers as `Nat`.  Each operation is translated directly from the Rust
source; `&mut T` return values are modelled by returning the referenced value
as an `Option T` next to the updated state.
-/

set_option autoImplicit false

universe u

/-- In-place update of the element at index `i`, modelling
`*vec.get_mut(i).unwrap() = f(...)` / `f(vec.get_mut(i).unwrap())`.
Out-of-range indices leave the list unchanged (the source only reaches
in-range indices; see the safety claims). -/
def modifyAt {T : Type u} : List T → Nat → (T → T) → List T
  | [], _, _ => []
  | x :: xs, 0, f => f x :: xs
  | x :: xs, i + 1, f => x :: modifyAt xs i f

/-- Model of the Rust trait `ReusableElement` (src/lib.rs): `reset` acts on an
existing element in place, `new` constructs a fresh one. -/
structure ReusableElement (T : Type u) where
  reset : T → T
  new : T

/-- Model of `ReusingVec<T>` (src/lib.rs): a backing vector plus the number of
live elements. -/
structure ReusingVec (T : Type u) where
  logical_len : Nat
  contents : List T
deriving DecidableEq, Repr

namespace ReusingVec

variable {T : Type u}

/-- `ReusingVec::new` (src/lib.rs). -/
def new : ReusingVec T := ⟨0, []⟩

/-- `ReusingVec::clear` (src/lib.rs): logical removal only. -/
def clear (s : ReusingVec T) : ReusingVec T :=
  { s with logical_len := 0 }

/-- `ReusingVec::truncate` (src/lib.rs). -/
def truncate (len : Nat) (s : ReusingVec T) : ReusingVec T :=
  if len < s.logical_len then { s with logical_len := len } else s

/-- `ReusingVec::len` (src/lib.rs). -/
def len (s : ReusingVec T) : Nat := s.logical_len

/-- `ReusingVec::is_empty` (src/lib.rs). -/
def is_empty (s : ReusingVec T) : Bool := s.logical_len == 0

/-- `ReusingVec::push_val` (src/lib.rs): overwrite the retired slot at
`logical_len` if one exists, else grow the backing vector. -/
def push_val (v : T) (s : ReusingVec T) : ReusingVec T :=
  if s.logical_len < s.contents.length then
    { s with contents := s.contents.set s.logical_len v,
             logical_len := s.logical_len + 1 }
  else
    { s with contents := s.contents ++ [v],
             logical_len := s.logical_len + 1 }

/-- `ReusingVec::push_with` (src/lib.rs): reset the retired slot at
`logical_len` in place if one exists, else append `new_f()`. -/
def push_with (new_f : Unit → T) (reset_f : T → T) (s : ReusingVec T) :
    ReusingVec T :=
  if s.logical_len < s.contents.length then
    { s with contents := modifyAt s.contents s.logical_len reset_f,
             logical_len := s.logical_len + 1 }
  else
    { s with contents := s.contents ++ [new_f ()],
             logical_len := s.logical_len + 1 }

/-- `ReusingVec::pop` (src/lib.rs): decrement the logical length and return
`contents.get_mut(logical_len)` (the now-retired former last element). -/
def pop (s : ReusingVec T) : Option T × ReusingVec T :=
  if s.logical_len > 0 then
    ((s.contents.get? (s.logical_len - 1)),
     { s with logical_len := s.logical_len - 1 })
  else
    (none, s)

/-- `ReusingVec::push_mut` (src/lib.rs, `T: ReusableElement` impl): reset the
retired slot or push `T::new()`, then return the element at the old
`logical_len`. -/
def push_mut (re : ReusableElement T) (s : ReusingVec T) :
    Option T × ReusingVec T :=
  let s1 :=
    if s.logical_len < s.contents.length then
      { s with contents := modifyAt s.contents s.logical_len re.reset }
    else
      { s with contents := s.contents ++ [re.new] }
  (s1.contents.get? s.logical_len, { s1 with logical_len := s.logical_len + 1 })

/-- The live window `&contents[0..logical_len]`, the common body of the
`Deref`, `DerefMut`, `AsRef`, `AsMut`, `Borrow` and `BorrowMut` impls
(src/lib.rs). -/
def view (s : ReusingVec T) : List T := s.contents.take s.logical_len

/-- `From<Vec<T>> for ReusingVec<T>` (src/lib.rs): the whole input is live. -/
def from_vec (v : List T) : ReusingVec T := ⟨v.length, v⟩

/-- `From<ReusingVec<T>> for Vec<T>` (src/lib.rs): `contents.truncate(logical_len)`
then hand out the backing vector. -/
def to_vec (s : ReusingVec T) : List T := s.contents.take s.logical_len

/-- `IntoIterator for ReusingVec<T>` (src/lib.rs):
`contents.into_iter().take(logical_len)`, modelled as the list of items the
iterator yields. -/
def into_iter (s : ReusingVec T) : List T := s.contents.take s.logical_len

end ReusingVec

/-- Rust slice equality `<[T] as PartialEq>::eq`: equal lengths and pairwise
element equality (element type with a lawful `Eq`). -/
def slice_beq {T : Type u} [DecidableEq T] : List T → List T → Bool
  | [], [] => true
  | x :: xs, y :: ys => decide (x = y) && slice_beq xs ys
  | _, _ => false

namespace ReusingVec

variable {T : Type u}

/-- `PartialEq<Self> for ReusingVec<T>` (src/lib.rs): slice equality of the
two live windows. -/
def veq [DecidableEq T] (a b : ReusingVec T) : Bool :=
  slice_beq a.view b.view

/-- `PartialEq<[T]> for ReusingVec<T>` and `PartialEq<Vec<T>>` (src/lib.rs). -/
def veq_slice [DecidableEq T] (a : ReusingVec T) (l : List T) : Bool :=
  slice_beq a.view l

end ReusingVec

/-- Model of `ReusingQueue<T>` (src/queue.rs): a backing vector plus the two
markers of the live window `[logical_start, logical_end)`. -/
structure ReusingQueue (T : Type u) where
  logical_start : Nat
  logical_end : Nat
  contents : List T
deriving DecidableEq, Repr

namespace ReusingQueue

variable {T : Type u}

/-- `ReusingQueue::new` (src/queue.rs). -/
def new : ReusingQueue T := ⟨0, 0, []⟩

/-- `ReusingQueue::clear` (src/queue.rs): both markers back to 0. -/
def clear (s : ReusingQueue T) : ReusingQueue T :=
  { s with logical_start := 0, logical_end := 0 }

/-- `ReusingQueue::truncate` (src/queue.rs). -/
def truncate (len : Nat) (s : ReusingQueue T) : ReusingQueue T :=
  if len = 0 then s.clear
  else if len < s.logical_end - s.logical_start then
    { s with logical_end := s.logical_start + len }
  else s

/-- `ReusingQueue::len` (src/queue.rs): `logical_end - logical_start`. -/
def len (s : ReusingQueue T) : Nat := s.logical_end - s.logical_start

/-- `ReusingQueue::is_empty` (src/queue.rs). -/
def is_empty (s : ReusingQueue T) : Bool := s.len == 0

/-- `ReusingQueue::push_with` (src/queue.rs): reset the slot at `logical_end`
in place if one exists, else append `new_f()`. -/
def push_with (new_f : Unit → T) (reset_f : T → T) (s : ReusingQueue T) :
    ReusingQueue T :=
  if s.logical_end < s.contents.length then
    { s with contents := modifyAt s.contents s.logical_end reset_f,
             logical_end := s.logical_end + 1 }
  else
    { s with contents := s.contents ++ [new_f ()],
             logical_end := s.logical_end + 1 }

/-- `ReusingQueue::pop` (src/queue.rs): decrement `logical_end`, collapse both
markers to 0 when the window empties, return the slot at the old index. -/
def pop (s : ReusingQueue T) : Option T × ReusingQueue T :=
  if s.logical_end > s.logical_start then
    let old_idx := s.logical_end - 1
    let s1 := { s with logical_end := s.logical_end - 1 }
    let s2 := if s1.logical_end = s1.logical_start then s1.clear else s1
    (s2.contents.get? old_idx, s2)
  else
    (none, s.clear)

/-- `ReusingQueue::pop_front` (src/queue.rs): advance `logical_start`,
collapse both markers to 0 when the window empties, return the slot at the old
start index. -/
def pop_front (s : ReusingQueue T) : Option T × ReusingQueue T :=
  if s.logical_end > s.logical_start then
    let old_idx := s.logical_start
    let s1 := { s with logical_start := s.logical_start + 1 }
    let s2 := if s1.logical_end = s1.logical_start then s1.clear else s1
    (s2.contents.get? old_idx, s2)
  else
    (none, s.clear)

/-- `ReusingQueue::push_mut` (src/queue.rs, `T: ReusableElement` impl). -/
def push_mut (re : ReusableElement T) (s : ReusingQueue T) :
    Option T × ReusingQueue T :=
  let s1 :=
    if s.logical_end < s.contents.length then
      { s with contents := modifyAt s.contents s.logical_end re.reset }
    else
      { s with contents := s.contents ++ [re.new] }
  (s1.contents.get? s.logical_end, { s1 with logical_end := s.logical_end + 1 })

/-- The live window `&contents[logical_start..logical_end]`, the common body
of the `Deref`, `DerefMut`, `AsRef`, `AsMut`, `Borrow` and `BorrowMut` impls
(src/queue.rs). -/
def view (s : ReusingQueue T) : List T :=
  (s.contents.drop s.logical_start).take (s.logical_end - s.logical_start)

/-- `From<Vec<T>> for ReusingQueue<T>` (src/queue.rs): the whole input is
live. -/
def from_vec (v : List T) : ReusingQueue T := ⟨0, v.length, v⟩

/-- `From<ReusingQueue<T>> for Vec<T>` (src/queue.rs):
`drain(0..logical_start)` then `truncate(logical_end - logical_start)`. -/
def to_vec (s : ReusingQueue T) : List T :=
  let c := s.contents.drop s.logical_start
  c.take (s.logical_end - s.logical_start)

/-- `IntoIterator for ReusingQueue<T>` (src/queue.rs): `nth(logical_start - 1)`
consumes the first `logical_start` items, then `take(logical_end - logical_start)`. -/
def into_iter (s : ReusingQueue T) : List T :=
  let it := s.contents
  let it := if s.logical_start > 0 then (it.drop (s.logical_start - 1)).drop 1 else it
  it.take (s.logical_end - s.logical_start)

/-- `PartialEq<Self> for ReusingQueue<T>` (src/queue.rs). -/
def qeq [DecidableEq T] (a b : ReusingQueue T) : Bool :=
  slice_beq a.view b.view

/-- `PartialEq<[T]>` and `PartialEq<Vec<T>>` for `ReusingQueue<T>`
(src/queue.rs). -/
def qeq_slice [DecidableEq T] (a : ReusingQueue T) (l : List T) : Bool :=
  slice_beq a.view l

/-- `PartialEq<ReusingVec<T>> for ReusingQueue<T>` (src/queue.rs). -/
def qeq_rvec [DecidableEq T] (a : ReusingQueue T) (b : ReusingVec T) : Bool :=
  slice_beq a.view b.view

end ReusingQueue

/-- Structural invariant of `ReusingVec`: the live count never exceeds the
physical length (spec section 3). -/
abbrev VInv {T : Type u} (s : ReusingVec T) : Prop :=
  s.logical_len ≤ s.contents.length

/-- Structural invariant of `ReusingQueue`:
`logical_start ≤ logical_end ≤ physical length` (spec section 3). -/
abbrev QInv {T : Type u} (s : ReusingQueue T) : Prop :=
  s.logical_start ≤ s.logical_end ∧ s.logical_end ≤ s.contents.length

section ListHelpers

variable {T : Type u}

theorem modifyAt_length (l : List T) (i : Nat) (f : T → T) :
    (modifyAt l i f).length = l.length := by
  induction l generalizing i with
  | nil => rfl
  | cons x xs ih =>
    cases i with
    | zero => rfl
    | succ n => simp [modifyAt, ih]

theorem modifyAt_congr (l : List T) (i : Nat) (f g : T → T) (h : ∀ x, f x = g x) :
    modifyAt l i f = modifyAt l i g := by
  induction l generalizing i with
  | nil => rfl
  | cons x xs ih =>
    cases i with
    | zero => simp [modifyAt, h]
    | succ n => simp [modifyAt, ih]

theorem modifyAt_const (l : List T) (i : Nat) (v : T) :
    modifyAt l i (fun _ => v) = l.set i v := by
  induction l generalizing i with
  | nil => rfl
  | cons x xs ih =>
    cases i with
    | zero => rfl
    | succ n => simp [modifyAt, ih]

theorem drop_modifyAt (l : List T) (i n : Nat) (f : T → T) (h : n ≤ i) :
    (modifyAt l i f).drop n = modifyAt (l.drop n) (i - n) f := by
  induction l generalizing i n with
  | nil => simp [modifyAt]
  | cons x xs ih =>
    cases n with
    | zero => simp
    | succ m =>
      cases i with
      | zero => omega
      | succ j =>
        simp only [modifyAt, List.drop_succ_cons, Nat.succ_sub_succ]
        exact ih j m (by omega)

theorem take_set_eq_take (l : List T) (i : Nat) (v : T) :
    (l.set i v).take i = l.take i := by
  apply List.ext_getElem?
  intro j
  rw [List.getElem?_take, List.getElem?_take]
  split
  · next hj => rw [List.getElem?_set_ne (by omega)]
  · rfl

theorem take_succ_set (l : List T) (i : Nat) (v : T) (h : i < l.length) :
    (l.set i v).take (i + 1) = l.take i ++ [v] := by
  rw [List.take_succ, take_set_eq_take, List.getElem?_set]
  simp [h]

theorem dropLast_take (l : List T) (n : Nat) (h : n ≤ l.length) :
    (l.take n).dropLast = l.take (n - 1) := by
  rw [List.dropLast_eq_take, List.length_take, List.take_take]
  congr 1
  omega

theorem tail_take (l : List T) (n : Nat) :
    (l.take n).tail = l.tail.take (n - 1) := by
  cases l with
  | nil => simp
  | cons x xs =>
    cases n with
    | zero => simp
    | succ m => simp

end ListHelpers

section VecStep

variable {T : Type u}

theorem view_length (s : ReusingVec T) (h : VInv s) :
    s.view.length = s.logical_len := by
  simp only [ReusingVec.view, List.length_take]
  omega

theorem push_val_view (s : ReusingVec T) (v : T) (h : VInv s) :
    (s.push_val v).view = s.view ++ [v] ∧ VInv (s.push_val v)
    ∧ (s.push_val v).logical_len = s.logical_len + 1 := by
  unfold ReusingVec.push_val
  split
  · next hlt =>
    refine ⟨?_, ?_, rfl⟩
    · show (s.contents.set s.logical_len v).take (s.logical_len + 1)
        = s.contents.take s.logical_len ++ [v]
      exact take_succ_set _ _ _ hlt
    · show s.logical_len + 1 ≤ (s.contents.set s.logical_len v).length
      rw [List.length_set]
      omega
  · next hge =>
    have hkey : s.logical_len = s.contents.length := by omega
    refine ⟨?_, ?_, rfl⟩
    · show (s.contents ++ [v]).take (s.logical_len + 1)
        = s.contents.take s.logical_len ++ [v]
      rw [hkey, List.take_length, List.take_of_length_le (by simp)]
    · show s.logical_len + 1 ≤ (s.contents ++ [v]).length
      simp
      omega

theorem push_with_view (s : ReusingVec T) (nf : Unit → T) (rf : T → T) (v : T)
    (hn : nf () = v) (hr : ∀ x, rf x = v) (h : VInv s) :
    (s.push_with nf rf).view = s.view ++ [v] ∧ VInv (s.push_with nf rf)
    ∧ (s.push_with nf rf).logical_len = s.logical_len + 1 := by
  unfold ReusingVec.push_with
  split
  · next hlt =>
    refine ⟨?_, ?_, rfl⟩
    · show (modifyAt s.contents s.logical_len rf).take (s.logical_len + 1)
        = s.contents.take s.logical_len ++ [v]
      rw [modifyAt_congr _ _ _ _ hr, modifyAt_const]
      exact take_succ_set _ _ _ hlt
    · show s.logical_len + 1 ≤ (modifyAt s.contents s.logical_len rf).length
      rw [modifyAt_length]
      omega
  · next hge =>
    have hkey : s.logical_len = s.contents.length := by omega
    refine ⟨?_, ?_, rfl⟩
    · show (s.contents ++ [nf ()]).take (s.logical_len + 1)
        = s.contents.take s.logical_len ++ [v]
      rw [hn, hkey, List.take_length, List.take_of_length_le (by simp)]
    · show s.logical_len + 1 ≤ (s.contents ++ [nf ()]).length
      simp
      omega

theorem push_mut_state (re : ReusableElement T) (s : ReusingVec T) :
    (s.push_mut re).2 = s.push_with (fun _ => re.new) re.reset := by
  unfold ReusingVec.push_mut ReusingVec.push_with
  split <;> rfl

theorem pop_spec (s : ReusingVec T) (h : VInv s) :
    (s.pop).2.view = s.view.dropLast ∧ VInv (s.pop).2
    ∧ ((s.pop).1.isSome ↔ 0 < s.logical_len)
    ∧ (s.pop).2.logical_len = s.logical_len - 1
    ∧ (0 < s.logical_len → (s.pop).1 = s.view.getLast?) := by
  unfold ReusingVec.pop
  split
  · next hpos =>
    have hlt : s.logical_len - 1 < s.contents.length := by omega
    refine ⟨?_, ?_, ?_, rfl, ?_⟩
    · show s.contents.take (s.logical_len - 1) = (s.contents.take s.logical_len).dropLast
      rw [dropLast_take _ _ h]
    · show s.logical_len - 1 ≤ s.contents.length
      omega
    · simp [List.getElem?_eq_getElem hlt, hpos]
    · intro _
      show s.contents.get? (s.logical_len - 1) = (s.contents.take s.logical_len).getLast?
      rw [List.get?_eq_getElem?, List.getLast?_take, if_neg (by omega),
        List.getElem?_eq_getElem hlt]
      simp
  · next hz =>
    have hz0 : s.logical_len = 0 := by omega
    refine ⟨?_, h, by simp [hz0], by show s.logical_len = s.logical_len - 1; omega,
      by intro hc; omega⟩
    simp [ReusingVec.view, hz0]

end VecStep

section QueueStep

variable {T : Type u}

theorem qview_length (s : ReusingQueue T) (h : QInv s) :
    s.view.length = s.logical_end - s.logical_start := by
  simp only [ReusingQueue.view, List.length_take, List.length_drop]
  omega

theorem qpush_with_view (s : ReusingQueue T) (nf : Unit → T) (rf : T → T) (v : T)
    (hn : nf () = v) (hr : ∀ x, rf x = v) (h : QInv s) :
    (s.push_with nf rf).view = s.view ++ [v] ∧ QInv (s.push_with nf rf)
    ∧ (s.push_with nf rf).len = s.len + 1 := by
  obtain ⟨h1, h2⟩ := h
  unfold ReusingQueue.push_with
  split
  · next hlt =>
    refine ⟨?_, ⟨?_, ?_⟩, ?_⟩
    · show ((modifyAt s.contents s.logical_end rf).drop s.logical_start).take
          (s.logical_end + 1 - s.logical_start)
        = (s.contents.drop s.logical_start).take (s.logical_end - s.logical_start) ++ [v]
      rw [drop_modifyAt _ _ _ _ h1, modifyAt_congr _ _ _ _ hr, modifyAt_const,
        show s.logical_end + 1 - s.logical_start = (s.logical_end - s.logical_start) + 1
          from by omega]
      exact take_succ_set _ _ _ (by rw [List.length_drop]; omega)
    · show s.logical_start ≤ s.logical_end + 1
      omega
    · show s.logical_end + 1 ≤ (modifyAt s.contents s.logical_end rf).length
      rw [modifyAt_length]
      omega
    · show s.logical_end + 1 - s.logical_start = s.logical_end - s.logical_start + 1
      omega
  · next hge =>
    have hkey : s.logical_end = s.contents.length := by omega
    refine ⟨?_, ⟨?_, ?_⟩, ?_⟩
    · show ((s.contents ++ [nf ()]).drop s.logical_start).take
          (s.logical_end + 1 - s.logical_start)
        = (s.contents.drop s.logical_start).take (s.logical_end - s.logical_start) ++ [v]
      rw [hn, List.drop_append_of_le_length (by omega),
        show s.logical_end + 1 - s.logical_start = (s.logical_end - s.logical_start) + 1
          from by omega,
        show s.logical_end - s.logical_start = (s.contents.drop s.logical_start).length
          from by rw [List.length_drop]; omega,
        List.take_length, List.take_of_length_le (by simp)]
    · show s.logical_start ≤ s.logical_end + 1
      omega
    · show s.logical_end + 1 ≤ (s.contents ++ [nf ()]).length
      simp
      omega
    · show s.logical_end + 1 - s.logical_start = s.logical_end - s.logical_start + 1
      omega

theorem qpush_mut_state (re : ReusableElement T) (s : ReusingQueue T) :
    (s.push_mut re).2 = s.push_with (fun _ => re.new) re.reset := by
  unfold ReusingQueue.push_mut ReusingQueue.push_with
  split <;> rfl

theorem qpop_eq_of_collapse (s : ReusingQueue T)
    (hpos : s.logical_end > s.logical_start) (hc : s.logical_end - 1 = s.logical_start) :
    s.pop = (s.contents.get? (s.logical_end - 1), ⟨0, 0, s.contents⟩) := by
  simp only [ReusingQueue.pop, if_pos hpos, hc, if_pos rfl]
  rfl

theorem qpop_eq_of_mid (s : ReusingQueue T)
    (hpos : s.logical_end > s.logical_start) (hc : s.logical_end - 1 ≠ s.logical_start) :
    s.pop = (s.contents.get? (s.logical_end - 1),
      { s with logical_end := s.logical_end - 1 }) := by
  simp only [ReusingQueue.pop, if_pos hpos, if_neg hc]

theorem qpop_eq_of_empty (s : ReusingQueue T)
    (hng : ¬ s.logical_end > s.logical_start) :
    s.pop = (none, ⟨0, 0, s.contents⟩) := by
  simp only [ReusingQueue.pop, if_neg hng]
  rfl

theorem qpop_front_eq_of_collapse (s : ReusingQueue T)
    (hpos : s.logical_end > s.logical_start) (hc : s.logical_end = s.logical_start + 1) :
    s.pop_front = (s.contents.get? s.logical_start, ⟨0, 0, s.contents⟩) := by
  simp only [ReusingQueue.pop_front, if_pos hpos]
  rw [if_pos hc]
  rfl

theorem qpop_front_eq_of_mid (s : ReusingQueue T)
    (hpos : s.logical_end > s.logical_start) (hc : s.logical_end ≠ s.logical_start + 1) :
    s.pop_front = (s.contents.get? s.logical_start,
      { s with logical_start := s.logical_start + 1 }) := by
  simp only [ReusingQueue.pop_front, if_pos hpos, if_neg hc]

theorem qpop_front_eq_of_empty (s : ReusingQueue T)
    (hng : ¬ s.logical_end > s.logical_start) :
    s.pop_front = (none, ⟨0, 0, s.contents⟩) := by
  simp only [ReusingQueue.pop_front, if_neg hng]
  rfl

theorem qpop_spec (s : ReusingQueue T) (h : QInv s) :
    (s.pop).2.view = s.view.dropLast ∧ QInv (s.pop).2
    ∧ ((s.pop).1.isSome ↔ 0 < s.len)
    ∧ (s.pop).2.len = s.len - 1
    ∧ (0 < s.len → (s.pop).1 = s.view.getLast?) := by
  obtain ⟨h1, h2⟩ := h
  have hvd : s.view.dropLast
      = (s.contents.drop s.logical_start).take (s.logical_end - s.logical_start - 1) := by
    show ((s.contents.drop s.logical_start).take (s.logical_end - s.logical_start)).dropLast = _
    exact dropLast_take _ _ (by rw [List.length_drop]; omega)
  by_cases hpos : s.logical_end > s.logical_start
  · have hidx : s.logical_end - 1 < s.contents.length := by omega
    have hsome : s.contents.get? (s.logical_end - 1) = some (s.contents.getD (s.logical_end - 1) (s.contents.get ⟨s.logical_end - 1, hidx⟩)) := by
      rw [List.get?_eq_getElem?, List.getElem?_eq_getElem hidx]
      simp [List.getD]
      rw [List.getElem?_eq_getElem hidx]
      rfl
    have hlast : s.contents.get? (s.logical_end - 1) = s.view.getLast? := by
      show _ = ((s.contents.drop s.logical_start).take (s.logical_end - s.logical_start)).getLast?
      rw [List.get?_eq_getElem?, List.getLast?_take, if_neg (by omega), List.getElem?_drop,
        show s.logical_start + (s.logical_end - s.logical_start - 1) = s.logical_end - 1
          from by omega,
        List.getElem?_eq_getElem hidx]
      simp
    by_cases hc : s.logical_end - 1 = s.logical_start
    · rw [qpop_eq_of_collapse s hpos hc]
      refine ⟨?_, ⟨Nat.le_refl 0, Nat.zero_le _⟩, ?_, ?_, fun _ => hlast⟩
      · show (s.contents.drop 0).take (0 - 0) = s.view.dropLast
        rw [hvd, show s.logical_end - s.logical_start - 1 = 0 from by omega]
        simp
      · rw [hsome]
        simp only [ReusingQueue.len]
        simp
        omega
      · show (0 : Nat) - 0 = s.logical_end - s.logical_start - 1
        omega
    · rw [qpop_eq_of_mid s hpos hc]
      refine ⟨?_, ⟨?_, ?_⟩, ?_, ?_, fun _ => hlast⟩
      · show (s.contents.drop s.logical_start).take (s.logical_end - 1 - s.logical_start)
          = s.view.dropLast
        rw [hvd, show s.logical_end - 1 - s.logical_start = s.logical_end - s.logical_start - 1
          from by omega]
      · show s.logical_start ≤ s.logical_end - 1
        omega
      · show s.logical_end - 1 ≤ s.contents.length
        omega
      · rw [hsome]
        simp only [ReusingQueue.len]
        simp
        omega
      · show s.logical_end - 1 - s.logical_start = s.logical_end - s.logical_start - 1
        omega
  · have he : s.logical_end - s.logical_start = 0 := by omega
    rw [qpop_eq_of_empty s hpos]
    refine ⟨?_, ⟨Nat.le_refl 0, Nat.zero_le _⟩, ?_, ?_, ?_⟩
    · show (s.contents.drop 0).take (0 - 0) = s.view.dropLast
      rw [hvd, show s.logical_end - s.logical_start - 1 = 0 from by omega]
      simp
    · simp only [ReusingQueue.len]
      simp [he]
    · show (0 : Nat) - 0 = s.logical_end - s.logical_start - 1
      omega
    · intro hcon
      simp only [ReusingQueue.len] at hcon
      omega

theorem qpop_front_spec (s : ReusingQueue T) (h : QInv s) :
    (s.pop_front).2.view = s.view.tail ∧ QInv (s.pop_front).2
    ∧ ((s.pop_front).1.isSome ↔ 0 < s.len)
    ∧ (s.pop_front).2.len = s.len - 1
    ∧ (0 < s.len → (s.pop_front).1 = s.view.head?) := by
  obtain ⟨h1, h2⟩ := h
  have hvt : s.view.tail
      = (s.contents.drop (s.logical_start + 1)).take (s.logical_end - s.logical_start - 1) := by
    show ((s.contents.drop s.logical_start).take (s.logical_end - s.logical_start)).tail = _
    rw [tail_take, List.tail_drop]
  by_cases hpos : s.logical_end > s.logical_start
  · have hidx : s.logical_start < s.contents.length := by omega
    have hsome : (s.contents.get? s.logical_start).isSome = true := by
      rw [List.get?_eq_getElem?, List.getElem?_eq_getElem hidx]
      rfl
    have hhead : s.contents.get? s.logical_start = s.view.head? := by
      show _ = ((s.contents.drop s.logical_start).take (s.logical_end - s.logical_start)).head?
      rw [List.get?_eq_getElem?, List.head?_take, if_neg (by omega), List.head?_drop]
    by_cases hc : s.logical_end = s.logical_start + 1
    · rw [qpop_front_eq_of_collapse s hpos hc]
      refine ⟨?_, ⟨Nat.le_refl 0, Nat.zero_le _⟩, ?_, ?_, fun _ => hhead⟩
      · show (s.contents.drop 0).take (0 - 0) = s.view.tail
        rw [hvt, show s.logical_end - s.logical_start - 1 = 0 from by omega]
        simp
      · rw [hsome]
        simp only [ReusingQueue.len]
        simp
        omega
      · show (0 : Nat) - 0 = s.logical_end - s.logical_start - 1
        omega
    · rw [qpop_front_eq_of_mid s hpos hc]
      refine ⟨?_, ⟨?_, ?_⟩, ?_, ?_, fun _ => hhead⟩
      · show (s.contents.drop (s.logical_start + 1)).take
            (s.logical_end - (s.logical_start + 1)) = s.view.tail
        rw [hvt, show s.logical_end - (s.logical_start + 1)
            = s.logical_end - s.logical_start - 1 from by omega]
      · show s.logical_start + 1 ≤ s.logical_end
        omega
      · show s.logical_end ≤ s.contents.length
        omega
      · rw [hsome]
        simp only [ReusingQueue.len]
        simp
        omega
      · show s.logical_end - (s.logical_start + 1) = s.logical_end - s.logical_start - 1
        omega
  · have he : s.logical_end - s.logical_start = 0 := by omega
    rw [qpop_front_eq_of_empty s hpos]
    refine ⟨?_, ⟨Nat.le_refl 0, Nat.zero_le _⟩, ?_, ?_, ?_⟩
    · show (s.contents.drop 0).take (0 - 0) = s.view.tail
      rw [hvt, show s.logical_end - s.logical_start - 1 = 0 from by omega]
      simp
    · simp only [ReusingQueue.len]
      simp [he]
    · show (0 : Nat) - 0 = s.logical_end - s.logical_start - 1
      omega
    · intro hcon
      simp only [ReusingQueue.len] at hcon
      omega

end QueueStep

/-- Push/pop operations on a `ReusingVec`: `push_val v`; `push_with` where the
`new_f` closure returns `v` and the `reset_f` closure overwrites the slot with
`v`; `push_mut` (with an ambient `ReusableElement`); `pop`. -/
inductive VecOp (T : Type u) where
  | pushVal (v : T)
  | pushWith (v : T)
  | pushMut
  | pop
deriving DecidableEq, Repr

/-- Run one `VecOp` against the code. -/
def applyVecOp {T : Type u} (re : ReusableElement T) : VecOp T → ReusingVec T → ReusingVec T
  | .pushVal v, s => s.push_val v
  | .pushWith v, s => s.push_with (fun _ => v) (fun _ => v)
  | .pushMut, s => (s.push_mut re).2
  | .pop, s => (s.pop).2

/-- Run a sequence of `VecOp`s against the code. -/
def runVecOps {T : Type u} (re : ReusableElement T) :
    List (VecOp T) → ReusingVec T → ReusingVec T
  | [], s => s
  | op :: ops, s => runVecOps re ops (applyVecOp re op s)

/-- The abstract meaning of one `VecOp` on the ideal element list: pushes
append, pop removes the last element. -/
def modelVecOp {T : Type u} (re : ReusableElement T) : VecOp T → List T → List T
  | .pushVal v, l => l ++ [v]
  | .pushWith v, l => l ++ [v]
  | .pushMut, l => l ++ [re.new]
  | .pop, l => l.dropLast

/-- Run a sequence of `VecOp`s on the ideal element list. -/
def runVecModel {T : Type u} (re : ReusableElement T) :
    List (VecOp T) → List T → List T
  | [], l => l
  | op :: ops, l => runVecModel re ops (modelVecOp re op l)

/-- Number of pushes in a `VecOp` sequence. -/
def vecPushes {T : Type u} : List (VecOp T) → Nat
  | [] => 0
  | .pop :: ops => vecPushes ops
  | _ :: ops => vecPushes ops + 1

/-- Number of successful pops (pops returning a `Some` element) along a run. -/
def vecSuccPops {T : Type u} (re : ReusableElement T) :
    List (VecOp T) → ReusingVec T → Nat
  | [], _ => 0
  | .pop :: ops, s =>
      (if (s.pop).1.isSome then 1 else 0) + vecSuccPops re ops (s.pop).2
  | op :: ops, s => vecSuccPops re ops (applyVecOp re op s)

theorem runVecOps_spec {T : Type u} (re : ReusableElement T)
    (hre : ∀ x, re.reset x = re.new) (ops : List (VecOp T)) :
    ∀ s : ReusingVec T, VInv s →
      VInv (runVecOps re ops s)
      ∧ (runVecOps re ops s).view = runVecModel re ops s.view
      ∧ vecSuccPops re ops s + (runVecOps re ops s).logical_len
          = s.logical_len + vecPushes ops := by
  induction ops with
  | nil =>
    intro s h
    exact ⟨h, rfl, by simp [runVecOps, runVecModel, vecSuccPops, vecPushes]⟩
  | cons op ops ih =>
    intro s h
    cases op with
    | pushVal v =>
      obtain ⟨hv, hi, hl⟩ := push_val_view s v h
      obtain ⟨i1, i2, i3⟩ := ih (s.push_val v) hi
      refine ⟨i1, ?_, ?_⟩
      · show (runVecOps re ops (s.push_val v)).view
          = runVecModel re ops (s.view ++ [v])
        rw [i2, hv]
      · show vecSuccPops re ops (s.push_val v)
            + (runVecOps re ops (s.push_val v)).logical_len
          = s.logical_len + (vecPushes ops + 1)
        omega
    | pushWith v =>
      obtain ⟨hv, hi, hl⟩ := push_with_view s (fun _ => v) (fun _ => v) v rfl (fun _ => rfl) h
      obtain ⟨i1, i2, i3⟩ := ih _ hi
      refine ⟨i1, ?_, ?_⟩
      · show (runVecOps re ops (s.push_with (fun _ => v) (fun _ => v))).view
          = runVecModel re ops (s.view ++ [v])
        rw [i2, hv]
      · show vecSuccPops re ops (s.push_with (fun _ => v) (fun _ => v))
            + (runVecOps re ops (s.push_with (fun _ => v) (fun _ => v))).logical_len
          = s.logical_len + (vecPushes ops + 1)
        omega
    | pushMut =>
      have hst := push_mut_state re s
      obtain ⟨hv, hi, hl⟩ :=
        push_with_view s (fun _ => re.new) re.reset re.new rfl hre h
      rw [← hst] at hv hi hl
      obtain ⟨i1, i2, i3⟩ := ih (s.push_mut re).2 hi
      refine ⟨i1, ?_, ?_⟩
      · show (runVecOps re ops (s.push_mut re).2).view
          = runVecModel re ops (s.view ++ [re.new])
        rw [i2, hv]
      · show vecSuccPops re ops (s.push_mut re).2
            + (runVecOps re ops (s.push_mut re).2).logical_len
          = s.logical_len + (vecPushes ops + 1)
        omega
    | pop =>
      obtain ⟨hv, hi, hs, hl, _⟩ := pop_spec s h
      obtain ⟨i1, i2, i3⟩ := ih (s.pop).2 hi
      refine ⟨i1, ?_, ?_⟩
      · show (runVecOps re ops (s.pop).2).view
          = runVecModel re ops s.view.dropLast
        rw [i2, hv]
      · show (if (s.pop).1.isSome then 1 else 0) + vecSuccPops re ops (s.pop).2
            + (runVecOps re ops (s.pop).2).logical_len
          = s.logical_len + vecPushes ops
        by_cases hp : 0 < s.logical_len
        · rw [if_pos (hs.mpr hp)]
          omega
        · rw [if_neg (fun hx => hp (hs.mp hx))]
          omega

/-- Push/pop operations on a `ReusingQueue`, as for `VecOp` (the queue has no
`push_val`, but pops at both ends). -/
inductive QPOp (T : Type u) where
  | pushWith (v : T)
  | pushMut
  | pop
  | popFront
deriving DecidableEq, Repr

/-- Run one `QPOp` against the code. -/
def applyQPOp {T : Type u} (re : ReusableElement T) : QPOp T → ReusingQueue T → ReusingQueue T
  | .pushWith v, s => s.push_with (fun _ => v) (fun _ => v)
  | .pushMut, s => (s.push_mut re).2
  | .pop, s => (s.pop).2
  | .popFront, s => (s.pop_front).2

/-- Run a sequence of `QPOp`s against the code. -/
def runQPOps {T : Type u} (re : ReusableElement T) :
    List (QPOp T) → ReusingQueue T → ReusingQueue T
  | [], s => s
  | op :: ops, s => runQPOps re ops (applyQPOp re op s)

/-- The abstract meaning of one `QPOp`: pushes append at the back, `pop`
removes the last element, `popFront` the first. -/
def modelQPOp {T : Type u} (re : ReusableElement T) : QPOp T → List T → List T
  | .pushWith v, l => l ++ [v]
  | .pushMut, l => l ++ [re.new]
  | .pop, l => l.dropLast
  | .popFront, l => l.tail

/-- Run a sequence of `QPOp`s on the ideal element list. -/
def runQPModel {T : Type u} (re : ReusableElement T) :
    List (QPOp T) → List T → List T
  | [], l => l
  | op :: ops, l => runQPModel re ops (modelQPOp re op l)

/-- Number of pushes in a `QPOp` sequence. -/
def qpPushes {T : Type u} : List (QPOp T) → Nat
  | [] => 0
  | .pushWith _ :: ops => qpPushes ops + 1
  | .pushMut :: ops => qpPushes ops + 1
  | _ :: ops => qpPushes ops

/-- Number of successful pops (from either end) along a run. -/
def qpSuccPops {T : Type u} (re : ReusableElement T) :
    List (QPOp T) → ReusingQueue T → Nat
  | [], _ => 0
  | .pop :: ops, s =>
      (if (s.pop).1.isSome then 1 else 0) + qpSuccPops re ops (s.pop).2
  | .popFront :: ops, s =>
      (if (s.pop_front).1.isSome then 1 else 0) + qpSuccPops re ops (s.pop_front).2
  | op :: ops, s => qpSuccPops re ops (applyQPOp re op s)

theorem runQPOps_spec {T : Type u} (re : ReusableElement T)
    (hre : ∀ x, re.reset x = re.new) (ops : List (QPOp T)) :
    ∀ s : ReusingQueue T, QInv s →
      QInv (runQPOps re ops s)
      ∧ (runQPOps re ops s).view = runQPModel re ops s.view
      ∧ qpSuccPops re ops s + (runQPOps re ops s).len = s.len + qpPushes ops := by
  induction ops with
  | nil =>
    intro s h
    exact ⟨h, rfl, by simp [runQPOps, runQPModel, qpSuccPops, qpPushes]⟩
  | cons op ops ih =>
    intro s h
    cases op with
    | pushWith v =>
      obtain ⟨hv, hi, hl⟩ := qpush_with_view s (fun _ => v) (fun _ => v) v rfl (fun _ => rfl) h
      obtain ⟨i1, i2, i3⟩ := ih _ hi
      refine ⟨i1, ?_, ?_⟩
      · show (runQPOps re ops (s.push_with (fun _ => v) (fun _ => v))).view
          = runQPModel re ops (s.view ++ [v])
        rw [i2, hv]
      · show qpSuccPops re ops (s.push_with (fun _ => v) (fun _ => v))
            + (runQPOps re ops (s.push_with (fun _ => v) (fun _ => v))).len
          = s.len + (qpPushes ops + 1)
        omega
    | pushMut =>
      have hst := qpush_mut_state re s
      obtain ⟨hv, hi, hl⟩ :=
        qpush_with_view s (fun _ => re.new) re.reset re.new rfl hre h
      rw [← hst] at hv hi hl
      obtain ⟨i1, i2, i3⟩ := ih (s.push_mut re).2 hi
      refine ⟨i1, ?_, ?_⟩
      · show (runQPOps re ops (s.push_mut re).2).view
          = runQPModel re ops (s.view ++ [re.new])
        rw [i2, hv]
      · show qpSuccPops re ops (s.push_mut re).2
            + (runQPOps re ops (s.push_mut re).2).len
          = s.len + (qpPushes ops + 1)
        omega
    | pop =>
      obtain ⟨hv, hi, hs, hl, _⟩ := qpop_spec s h
      obtain ⟨i1, i2, i3⟩ := ih (s.pop).2 hi
      refine ⟨i1, ?_, ?_⟩
      · show (runQPOps re ops (s.pop).2).view = runQPModel re ops s.view.dropLast
        rw [i2, hv]
      · show (if (s.pop).1.isSome then 1 else 0) + qpSuccPops re ops (s.pop).2
            + (runQPOps re ops (s.pop).2).len
          = s.len + qpPushes ops
        by_cases hp : 0 < s.len
        · rw [if_pos (hs.mpr hp)]
          omega
        · rw [if_neg (fun hx => hp (hs.mp hx))]
          omega
    | popFront =>
      obtain ⟨hv, hi, hs, hl, _⟩ := qpop_front_spec s h
      obtain ⟨i1, i2, i3⟩ := ih (s.pop_front).2 hi
      refine ⟨i1, ?_, ?_⟩
      · show (runQPOps re ops (s.pop_front).2).view = runQPModel re ops s.view.tail
        rw [i2, hv]
      · show (if (s.pop_front).1.isSome then 1 else 0) + qpSuccPops re ops (s.pop_front).2
            + (runQPOps re ops (s.pop_front).2).len
          = s.len + qpPushes ops
        by_cases hp : 0 < s.len
        · rw [if_pos (hs.mpr hp)]
          omega
        · rw [if_neg (fun hx => hp (hs.mp hx))]
          omega

/-- Collapse invariant of `ReusingQueue` (spec section 3): structural
invariant plus "an empty window has both markers at 0". -/
abbrev QInv2 {T : Type u} (s : ReusingQueue T) : Prop :=
  QInv s ∧ (s.logical_start = s.logical_end → s.logical_start = 0 ∧ s.logical_end = 0)

/-- The full operation set of `ReusingQueue`: pushes, pops at both ends,
`truncate` and `clear`. -/
inductive QOp (T : Type u) where
  | pushWith (v : T)
  | pushMut
  | pop
  | popFront
  | trunc (n : Nat)
  | clearOp
deriving DecidableEq, Repr

/-- Run one `QOp` against the code. -/
def applyQOp {T : Type u} (re : ReusableElement T) : QOp T → ReusingQueue T → ReusingQueue T
  | .pushWith v, s => s.push_with (fun _ => v) (fun _ => v)
  | .pushMut, s => (s.push_mut re).2
  | .pop, s => (s.pop).2
  | .popFront, s => (s.pop_front).2
  | .trunc n, s => s.truncate n
  | .clearOp, s => s.clear

/-- Run a sequence of `QOp`s against the code. -/
def runQOps {T : Type u} (re : ReusableElement T) :
    List (QOp T) → ReusingQueue T → ReusingQueue T
  | [], s => s
  | op :: ops, s => runQOps re ops (applyQOp re op s)

section QueueInv

variable {T : Type u}

theorem qpush_with_inv (s : ReusingQueue T) (nf : Unit → T) (rf : T → T)
    (h : QInv s) : QInv (s.push_with nf rf) := by
  obtain ⟨h1, h2⟩ := h
  unfold ReusingQueue.push_with
  split
  · next hlt =>
    refine ⟨?_, ?_⟩
    · show s.logical_start ≤ s.logical_end + 1
      omega
    · show s.logical_end + 1 ≤ (modifyAt s.contents s.logical_end rf).length
      rw [modifyAt_length]
      omega
  · next hge =>
    refine ⟨?_, ?_⟩
    · show s.logical_start ≤ s.logical_end + 1
      omega
    · show s.logical_end + 1 ≤ (s.contents ++ [nf ()]).length
      simp
      omega

theorem qpush_with_markers (s : ReusingQueue T) (nf : Unit → T) (rf : T → T) :
    (s.push_with nf rf).logical_start = s.logical_start
    ∧ (s.push_with nf rf).logical_end = s.logical_end + 1 := by
  unfold ReusingQueue.push_with
  split <;> exact ⟨rfl, rfl⟩

theorem qtruncate_inv (s : ReusingQueue T) (n : Nat) (h : QInv s) :
    QInv (s.truncate n) := by
  obtain ⟨h1, h2⟩ := h
  unfold ReusingQueue.truncate
  split
  · exact ⟨Nat.le_refl 0, Nat.zero_le _⟩
  · split
    · next hlt =>
      exact ⟨by show s.logical_start ≤ s.logical_start + n; omega,
        by show s.logical_start + n ≤ s.contents.length; omega⟩
    · exact ⟨h1, h2⟩

theorem qinv2_push (s : ReusingQueue T) (nf : Unit → T) (rf : T → T)
    (h : QInv2 s) : QInv2 (s.push_with nf rf) := by
  obtain ⟨⟨h1, h2⟩, _⟩ := h
  obtain ⟨hs, he⟩ := qpush_with_markers s nf rf
  refine ⟨qpush_with_inv s nf rf ⟨h1, h2⟩, ?_⟩
  rw [hs, he]
  intro heq
  omega

theorem qinv2_pop (s : ReusingQueue T) (h : QInv2 s) : QInv2 (s.pop).2 := by
  obtain ⟨⟨h1, h2⟩, _⟩ := h
  by_cases hpos : s.logical_end > s.logical_start
  · by_cases hcc : s.logical_end - 1 = s.logical_start
    · rw [qpop_eq_of_collapse s hpos hcc]
      exact ⟨⟨Nat.le_refl 0, Nat.zero_le _⟩, fun _ => ⟨rfl, rfl⟩⟩
    · rw [qpop_eq_of_mid s hpos hcc]
      refine ⟨⟨?_, ?_⟩, ?_⟩
      · show s.logical_start ≤ s.logical_end - 1
        omega
      · show s.logical_end - 1 ≤ s.contents.length
        omega
      · show s.logical_start = s.logical_end - 1 →
          s.logical_start = 0 ∧ s.logical_end - 1 = 0
        intro heq
        omega
  · rw [qpop_eq_of_empty s hpos]
    exact ⟨⟨Nat.le_refl 0, Nat.zero_le _⟩, fun _ => ⟨rfl, rfl⟩⟩

theorem qinv2_pop_front (s : ReusingQueue T) (h : QInv2 s) : QInv2 (s.pop_front).2 := by
  obtain ⟨⟨h1, h2⟩, _⟩ := h
  by_cases hpos : s.logical_end > s.logical_start
  · by_cases hcc : s.logical_end = s.logical_start + 1
    · rw [qpop_front_eq_of_collapse s hpos hcc]
      exact ⟨⟨Nat.le_refl 0, Nat.zero_le _⟩, fun _ => ⟨rfl, rfl⟩⟩
    · rw [qpop_front_eq_of_mid s hpos hcc]
      refine ⟨⟨?_, ?_⟩, ?_⟩
      · show s.logical_start + 1 ≤ s.logical_end
        omega
      · show s.logical_end ≤ s.contents.length
        omega
      · show s.logical_start + 1 = s.logical_end →
          s.logical_start + 1 = 0 ∧ s.logical_end = 0
        intro heq
        omega
  · rw [qpop_front_eq_of_empty s hpos]
    exact ⟨⟨Nat.le_refl 0, Nat.zero_le _⟩, fun _ => ⟨rfl, rfl⟩⟩

theorem qinv2_truncate (s : ReusingQueue T) (n : Nat) (h : QInv2 s) :
    QInv2 (s.truncate n) := by
  obtain ⟨⟨h1, h2⟩, hc⟩ := h
  unfold ReusingQueue.truncate
  split
  · exact ⟨⟨Nat.le_refl 0, Nat.zero_le _⟩, fun _ => ⟨rfl, rfl⟩⟩
  · next hn0 =>
    split
    · next hlt =>
      refine ⟨⟨?_, ?_⟩, ?_⟩
      · show s.logical_start ≤ s.logical_start + n
        omega
      · show s.logical_start + n ≤ s.contents.length
        omega
      · show s.logical_start = s.logical_start + n →
          s.logical_start = 0 ∧ s.logical_start + n = 0
        intro heq
        omega
    · exact ⟨⟨h1, h2⟩, hc⟩

theorem qinv2_clear (s : ReusingQueue T) : QInv2 s.clear :=
  ⟨⟨Nat.le_refl 0, Nat.zero_le _⟩, fun _ => ⟨rfl, rfl⟩⟩

theorem qinv2_push_mut (re : ReusableElement T) (s : ReusingQueue T)
    (h : QInv2 s) : QInv2 (s.push_mut re).2 := by
  rw [qpush_mut_state re s]
  exact qinv2_push s _ _ h

theorem runQOps_inv2 (re : ReusableElement T) (ops : List (QOp T)) :
    ∀ s : ReusingQueue T, QInv2 s → QInv2 (runQOps re ops s) := by
  induction ops with
  | nil => intro s h; exact h
  | cons op ops ih =>
    intro s h
    refine ih _ ?_
    cases op with
    | pushWith v => exact qinv2_push s _ _ h
    | pushMut => exact qinv2_push_mut re s h
    | pop => exact qinv2_pop s h
    | popFront => exact qinv2_pop_front s h
    | trunc n => exact qinv2_truncate s n h
    | clearOp => exact qinv2_clear s

/-- When both markers are 0, the next push writes the pushed value into
physical slot 0 (either by resetting the retired slot there or by appending
to empty storage). -/
theorem qpush_fill_zero (s : ReusingQueue T) (v : T)
    (_h0 : s.logical_start = 0) (h1 : s.logical_end = 0) :
    ((s.push_with (fun _ => v) (fun _ => v)).contents).get? 0 = some v := by
  unfold ReusingQueue.push_with
  split
  · next hlt =>
    rw [h1] at hlt ⊢
    show (modifyAt s.contents 0 (fun _ => v)).get? 0 = some v
    rw [modifyAt_const, List.get?_eq_getElem?, List.getElem?_set]
    simp [hlt]
  · next hge =>
    rw [h1] at hge
    have : s.contents.length = 0 := by omega
    have hnil : s.contents = [] := List.length_eq_zero.mp this
    show (s.contents ++ [v]).get? 0 = some v
    rw [hnil]
    rfl

end QueueInv

section MoreInv

variable {T : Type u}

theorem push_with_inv (s : ReusingVec T) (nf : Unit → T) (rf : T → T)
    (h : VInv s) : VInv (s.push_with nf rf) := by
  unfold ReusingVec.push_with
  split
  · next hlt =>
    show s.logical_len + 1 ≤ (modifyAt s.contents s.logical_len rf).length
    rw [modifyAt_length]
    omega
  · next hge =>
    show s.logical_len + 1 ≤ (s.contents ++ [nf ()]).length
    simp
    omega

theorem vtruncate_inv (s : ReusingVec T) (n : Nat) (h : VInv s) :
    VInv (s.truncate n) := by
  unfold ReusingVec.truncate
  split
  · next hlt =>
    show n ≤ s.contents.length
    omega
  · exact h

end MoreInv

/-- C1: starting from an empty container, after any sequence of pushes
(`push_val` / `push_with` / `push_mut`) and pops (`pop`, plus `pop_front` for
the queue) the live window equals exactly the pushed elements in push order
minus the elements removed from the corresponding end(s) — independent of
retired-slot contents — and `len()` equals the number of pushes minus the
number of successful pops.  `push_with` ops push a definite value `v`
(`new_f` returns `v` and `reset_f` overwrites the slot with `v`), and the
`ReusableElement` used by `push_mut` satisfies the spec contract that `reset`
restores the freshly-constructed state. -/
theorem c1_push_pop_refinement {T : Type u} (re : ReusableElement T)
    (hre : ∀ x, re.reset x = re.new)
    (ops : List (VecOp T)) (qops : List (QPOp T)) :
    (runVecOps re ops ReusingVec.new).view = runVecModel re ops []
    ∧ (runVecOps re ops ReusingVec.new).len
        = vecPushes ops - vecSuccPops re ops ReusingVec.new
    ∧ (runQPOps re qops ReusingQueue.new).view = runQPModel re qops []
    ∧ (runQPOps re qops ReusingQueue.new).len
        = qpPushes qops - qpSuccPops re qops ReusingQueue.new := by
  obtain ⟨v1, v2, v3⟩ := runVecOps_spec re hre ops ReusingVec.new (Nat.le_refl 0)
  obtain ⟨q1, q2, q3⟩ :=
    runQPOps_spec re hre qops ReusingQueue.new ⟨Nat.le_refl 0, Nat.le_refl 0⟩
  refine ⟨v2, ?_, q2, ?_⟩
  · show (runVecOps re ops ReusingVec.new).logical_len = _
    have hn : (ReusingVec.new (T := T)).logical_len = 0 := rfl
    omega
  · have hn : (ReusingQueue.new (T := T)).len = 0 := rfl
    omega

/-- Witness for C1: a concrete run `push_val 1; push_with 2; push_mut; pop`
leaves live window `[1, 2]`. -/
theorem c1_push_pop_refinement_witness :
    (∀ x : Nat, (ReusableElement.mk (fun _ => 0) 0).reset x
        = (ReusableElement.mk (fun _ => 0) 0).new)
    ∧ (runVecOps (ReusableElement.mk (fun _ => 0) 0)
        [VecOp.pushVal 1, VecOp.pushWith 2, VecOp.pushMut, VecOp.pop]
        ReusingVec.new).view = [1, 2] := by
  refine ⟨fun x => rfl, ?_⟩
  have h := c1_push_pop_refinement (ReusableElement.mk (fun _ => 0) 0)
    (fun x => rfl)
    [VecOp.pushVal 1, VecOp.pushWith 2, VecOp.pushMut, VecOp.pop] []
  rw [h.1]
  rfl

/-- C2: for every `ReusingQueue` reachable from `new` by any operation
sequence, an empty live window (`logical_start = logical_end`) forces both
markers to 0, and the next push then fills physical index 0 with the pushed
value. -/
theorem c2_collapse_invariant {T : Type u} (re : ReusableElement T)
    (ops : List (QOp T)) (v : T)
    (h : (runQOps re ops ReusingQueue.new).logical_start
        = (runQOps re ops ReusingQueue.new).logical_end) :
    (runQOps re ops ReusingQueue.new).logical_start = 0
    ∧ (runQOps re ops ReusingQueue.new).logical_end = 0
    ∧ ((runQOps re ops ReusingQueue.new).push_with
        (fun _ => v) (fun _ => v)).contents.get? 0 = some v := by
  have hinv := runQOps_inv2 re ops ReusingQueue.new
    ⟨⟨Nat.le_refl 0, Nat.le_refl 0⟩, fun _ => ⟨rfl, rfl⟩⟩
  obtain ⟨hz1, hz2⟩ := hinv.2 h
  exact ⟨hz1, hz2, qpush_fill_zero _ v hz1 hz2⟩

/-- Witness for C2: `push_with 5; pop_front` empties the window; the markers
are both 0 and a subsequent push writes 7 into physical slot 0. -/
theorem c2_collapse_invariant_witness :
    (runQOps (ReusableElement.mk (fun _ : Unit => (0 : Nat)) 0)
        [QOp.pushWith 5, QOp.popFront] ReusingQueue.new).logical_start
      = (runQOps (ReusableElement.mk (fun _ : Unit => (0 : Nat)) 0)
        [QOp.pushWith 5, QOp.popFront] ReusingQueue.new).logical_end
    ∧ ((runQOps (ReusableElement.mk (fun _ : Unit => (0 : Nat)) 0)
        [QOp.pushWith 5, QOp.popFront] ReusingQueue.new).push_with
        (fun _ => 7) (fun _ => 7)).contents.get? 0 = some 7 := by
  refine ⟨by decide, ?_⟩
  exact (c2_collapse_invariant (ReusableElement.mk (fun _ : Unit => (0 : Nat)) 0)
    [QOp.pushWith 5, QOp.popFront] 7 (by decide)).2.2

/-- C3: every operation preserves `logical_len ≤ contents.length` on a
`ReusingVec` and `logical_start ≤ logical_end ≤ contents.length` on a
`ReusingQueue`. -/
theorem c3_invariant_preservation {T : Type u} (re : ReusableElement T)
    (v : T) (n : Nat) (nf : Unit → T) (rf : T → T)
    (s : ReusingVec T) (q : ReusingQueue T) (hs : VInv s) (hq : QInv q) :
    VInv (s.push_val v) ∧ VInv (s.push_with nf rf) ∧ VInv (s.push_mut re).2
    ∧ VInv (s.pop).2 ∧ VInv (s.truncate n) ∧ VInv s.clear
    ∧ QInv (q.push_with nf rf) ∧ QInv (q.push_mut re).2 ∧ QInv (q.pop).2
    ∧ QInv (q.pop_front).2 ∧ QInv (q.truncate n) ∧ QInv q.clear := by
  refine ⟨(push_val_view s v hs).2.1, push_with_inv s nf rf hs, ?_,
    (pop_spec s hs).2.1, vtruncate_inv s n hs, Nat.zero_le _,
    qpush_with_inv q nf rf hq, ?_, (qpop_spec q hq).2.1,
    (qpop_front_spec q hq).2.1, qtruncate_inv q n hq,
    ⟨Nat.le_refl 0, Nat.zero_le _⟩⟩
  · rw [push_mut_state re s]
    exact push_with_inv s _ _ hs
  · rw [qpush_mut_state re q]
    exact qpush_with_inv q _ _ hq

/-- Witness for C3 at concrete states. -/
theorem c3_invariant_preservation_witness :
    VInv (⟨1, [3, 4]⟩ : ReusingVec Nat) ∧ QInv (⟨1, 2, [3, 4, 5]⟩ : ReusingQueue Nat)
    ∧ VInv (ReusingVec.push_val 9 ⟨1, [3, 4]⟩) := by
  refine ⟨by decide, ⟨by decide, by decide⟩, ?_⟩
  exact (c3_invariant_preservation (ReusableElement.mk (fun _ : Nat => 0) 0) 9 1
    (fun _ => 0) (fun x => x) ⟨1, [3, 4]⟩ ⟨1, 2, [3, 4, 5]⟩ (by decide)
    ⟨by decide, by decide⟩).1

/-- C4: `push_with(new_f, reset_f)` resets the slot at the logical end in
place — its result does not depend on `new_f` — exactly when a retired slot
exists there (`logical_len < contents.length`), and otherwise appends
`new_f()` without using `reset_f`; either way the logical length grows by 1.
`push_mut` is the same operation with the `ReusableElement` closures.  After
`clear()` on a container with nonzero physical length the next push takes the
reuse path (for the queue as well). -/
theorem c4_push_reuse_path {T : Type u} (re : ReusableElement T)
    (n1 n2 : Unit → T) (r0 r1 r2 : T → T) (s : ReusingVec T) (q : ReusingQueue T) :
    (s.logical_len < s.contents.length →
      s.push_with n1 r0 = s.push_with n2 r0
      ∧ (s.push_with n1 r0).contents = modifyAt s.contents s.logical_len r0)
    ∧ (¬ s.logical_len < s.contents.length →
      s.push_with n1 r1 = s.push_with n1 r2
      ∧ (s.push_with n1 r1).contents = s.contents ++ [n1 ()])
    ∧ (s.push_with n1 r0).logical_len = s.logical_len + 1
    ∧ (s.push_mut re).2 = s.push_with (fun _ => re.new) re.reset
    ∧ (0 < s.contents.length →
        s.clear.push_with n1 r0 = s.clear.push_with n2 r0
        ∧ (s.clear.push_with n1 r0).contents = modifyAt s.contents 0 r0)
    ∧ (0 < q.contents.length →
        q.clear.push_with n1 r0 = q.clear.push_with n2 r0) := by
  refine ⟨?_, ?_, ?_, push_mut_state re s, ?_, ?_⟩
  · intro hlt
    unfold ReusingVec.push_with
    simp only [if_pos hlt]
    exact ⟨trivial, trivial⟩
  · intro hge
    unfold ReusingVec.push_with
    simp only [if_neg hge]
    exact ⟨trivial, trivial⟩
  · unfold ReusingVec.push_with
    split <;> rfl
  · intro hpos
    have hlt : s.clear.logical_len < s.clear.contents.length := hpos
    unfold ReusingVec.push_with
    simp only [if_pos hlt]
    exact ⟨trivial, rfl⟩
  · intro hpos
    have hlt : q.clear.logical_end < q.clear.contents.length := hpos
    unfold ReusingQueue.push_with
    simp only [if_pos hlt]

/-- Witness for C4 at a concrete state: the reuse path ignores `new_f` and
resets slot 1 in place. -/
theorem c4_push_reuse_path_witness :
    (1 : Nat) < ([5, 6] : List Nat).length
    ∧ ReusingVec.push_with (fun _ => 9) (fun x => x + 10) (⟨1, [5, 6]⟩ : ReusingVec Nat)
      = ReusingVec.push_with (fun _ => 3) (fun x => x + 10) (⟨1, [5, 6]⟩ : ReusingVec Nat) := by
  refine ⟨by decide, ?_⟩
  exact ((c4_push_reuse_path (ReusableElement.mk (fun _ : Nat => 0) 0)
    (fun _ => 9) (fun _ => 3) (fun x => x + 10) (fun x => x) (fun x => x)
    ⟨1, [5, 6]⟩ ⟨0, 0, []⟩).1 (by decide)).1

/-- C5: popping an empty container yields `None` and leaves the live window
and length unchanged; popping a non-empty `ReusingVec` decrements the logical
length and returns the former last live element; `pop` / `pop_front` on a
non-empty `ReusingQueue` return the removed element (also when the removal
collapses the window). -/
theorem c5_pop_semantics {T : Type u} (s : ReusingVec T) (q : ReusingQueue T)
    (hs : VInv s) (hq : QInv q) :
    (s.logical_len = 0 → s.pop = (none, s))
    ∧ (0 < s.logical_len →
        (s.pop).1 = s.view.getLast? ∧ (s.pop).1.isSome
        ∧ (s.pop).2.logical_len = s.logical_len - 1)
    ∧ (q.len = 0 →
        (q.pop).1 = none ∧ (q.pop).2.view = q.view ∧ (q.pop).2.len = q.len
        ∧ (q.pop_front).1 = none ∧ (q.pop_front).2.view = q.view
        ∧ (q.pop_front).2.len = q.len)
    ∧ (0 < q.len →
        (q.pop).1.isSome ∧ (q.pop).1 = q.view.getLast?
        ∧ (q.pop).2.len = q.len - 1
        ∧ (q.pop_front).1.isSome ∧ (q.pop_front).1 = q.view.head?
        ∧ (q.pop_front).2.len = q.len - 1) := by
  obtain ⟨pv, pi, ps, pl, pr⟩ := pop_spec s hs
  obtain ⟨qv, qi, qs, ql, qr⟩ := qpop_spec q hq
  obtain ⟨fv, fi, fs, fl, fr⟩ := qpop_front_spec q hq
  refine ⟨?_, ?_, ?_, ?_⟩
  · intro hz
    unfold ReusingVec.pop
    rw [if_neg (by omega)]
  · intro hp
    exact ⟨pr hp, ps.mpr hp, pl⟩
  · intro hz
    have hv0 : q.view = [] := by
      have := qview_length q hq
      have hlen0 : q.view.length = 0 := by
        rw [this]
        exact hz
      exact List.length_eq_zero.mp hlen0
    refine ⟨?_, ?_, ?_, ?_, ?_, ?_⟩
    · refine Option.not_isSome_iff_eq_none.mp (fun hx => ?_)
      have := qs.mp hx
      omega
    · rw [qv, hv0]
      rfl
    · omega
    · refine Option.not_isSome_iff_eq_none.mp (fun hx => ?_)
      have := fs.mp hx
      omega
    · rw [fv, hv0]
      rfl
    · omega
  · intro hp
    exact ⟨qs.mpr hp, qr hp, ql, fs.mpr hp, fr hp, fl⟩

/-- Witness for C5 at concrete states. -/
theorem c5_pop_semantics_witness :
    VInv (⟨2, [4, 5, 6]⟩ : ReusingVec Nat) ∧ QInv (⟨1, 2, [4, 5, 6]⟩ : ReusingQueue Nat)
    ∧ (0 : Nat) < (⟨1, 2, [4, 5, 6]⟩ : ReusingQueue Nat).len
    ∧ (ReusingQueue.pop (⟨1, 2, [4, 5, 6]⟩ : ReusingQueue Nat)).1
      = (⟨1, 2, [4, 5, 6]⟩ : ReusingQueue Nat).view.getLast? := by
  refine ⟨by decide, ⟨by decide, by decide⟩, by decide, ?_⟩
  exact ((c5_pop_semantics (⟨2, [4, 5, 6]⟩ : ReusingVec Nat)
    (⟨1, 2, [4, 5, 6]⟩ : ReusingQueue Nat) (by decide)
    ⟨by decide, by decide⟩).2.2.2 (by decide)).2.1

/-- C6: `truncate(0)` is identical to `clear()`; for `0 < len` below the
current logical length, `truncate` moves `logical_end` to
`logical_start + len` touching nothing else; for `len ≠ 0` at or above the
current logical length it is a no-op. -/
theorem c6_truncate_semantics {T : Type u} (q : ReusingQueue T) (n : Nat) :
    q.truncate 0 = q.clear
    ∧ (0 < n → n < q.len →
        (q.truncate n).logical_end = q.logical_start + n
        ∧ (q.truncate n).logical_start = q.logical_start
        ∧ (q.truncate n).contents = q.contents)
    ∧ (n ≠ 0 → q.len ≤ n → q.truncate n = q) := by
  refine ⟨?_, ?_, ?_⟩
  · unfold ReusingQueue.truncate
    rw [if_pos rfl]
  · intro hp hlt
    have hlt' : n < q.logical_end - q.logical_start := hlt
    unfold ReusingQueue.truncate
    rw [if_neg (by omega), if_pos hlt']
    exact ⟨rfl, rfl, rfl⟩
  · intro hn0 hge
    have hge' : q.logical_end - q.logical_start ≤ n := hge
    unfold ReusingQueue.truncate
    rw [if_neg hn0, if_neg (by omega)]

/-- Witness for C6: truncating `⟨1, 3, [4, 5, 6]⟩` to 1 element moves
`logical_end` to 2. -/
theorem c6_truncate_semantics_witness :
    (0 : Nat) < 1 ∧ 1 < (⟨1, 3, [4, 5, 6]⟩ : ReusingQueue Nat).len
    ∧ (ReusingQueue.truncate 1 (⟨1, 3, [4, 5, 6]⟩ : ReusingQueue Nat)).logical_end = 2 := by
  refine ⟨by decide, by decide, ?_⟩
  have h := ((c6_truncate_semantics (⟨1, 3, [4, 5, 6]⟩ : ReusingQueue Nat) 1).2.1
    (by decide) (by decide)).1
  rw [h]

/-- C7: converting either container to a plain vector materialises exactly
the live window, converting a plain vector in treats the whole input as live,
and the round trip reproduces the live window. -/
theorem c7_round_trip {T : Type u} (s : ReusingVec T) (q : ReusingQueue T) (l : List T) :
    s.to_vec = s.view
    ∧ q.to_vec = q.view
    ∧ (ReusingVec.from_vec l).view = l
    ∧ (ReusingVec.from_vec l).logical_len = l.length
    ∧ (ReusingQueue.from_vec l).view = l
    ∧ (ReusingQueue.from_vec l).logical_start = 0
    ∧ (ReusingQueue.from_vec l).logical_end = l.length
    ∧ (ReusingVec.from_vec s.to_vec).view = s.view
    ∧ (ReusingQueue.from_vec q.to_vec).view = q.view := by
  have h1 : ∀ m : List T, (ReusingVec.from_vec m).view = m := fun m =>
    List.take_length m
  have h2 : ∀ m : List T, (ReusingQueue.from_vec m).view = m := fun m => by
    show (m.drop 0).take (m.length - 0) = m
    simp
  exact ⟨rfl, rfl, h1 l, rfl, h2 l, rfl, rfl, h1 _, h2 _⟩

theorem slice_beq_iff {T : Type u} [DecidableEq T] (a b : List T) :
    slice_beq a b = true ↔ a = b := by
  induction a generalizing b with
  | nil => cases b <;> simp [slice_beq]
  | cons x xs ih =>
    cases b with
    | nil => simp [slice_beq]
    | cons y ys => simp [slice_beq, ih]

theorem slice_beq_eq_decide {T : Type u} [DecidableEq T] (a b : List T) :
    slice_beq a b = decide (a = b) := by
  cases hb : slice_beq a b
  · have hne : ¬ a = b := fun hh => by
      rw [(slice_beq_iff a b).mpr hh] at hb
      cases hb
    simp [hne]
  · have heq : a = b := (slice_beq_iff a b).mp hb
    simp [heq]

/-- C8: all the `PartialEq` impls compare only the live windows element-wise;
equality is reflexive and symmetric, and identical live windows compare equal
regardless of retired-region contents. -/
theorem c8_equality_live_window {T : Type u} [DecidableEq T]
    (a b : ReusingVec T) (p r : ReusingQueue T) (l : List T) :
    a.veq a = true
    ∧ a.veq b = b.veq a
    ∧ (a.view = b.view → a.veq b = true)
    ∧ p.qeq p = true
    ∧ p.qeq r = r.qeq p
    ∧ (p.view = r.view → p.qeq r = true)
    ∧ (p.qeq_rvec a = true ↔ p.view = a.view)
    ∧ (a.veq_slice l = true ↔ a.view = l)
    ∧ (p.qeq_slice l = true ↔ p.view = l) := by
  refine ⟨?_, ?_, ?_, ?_, ?_, ?_, ?_, ?_, ?_⟩
  · exact (slice_beq_iff _ _).mpr rfl
  · show slice_beq a.view b.view = slice_beq b.view a.view
    rw [slice_beq_eq_decide, slice_beq_eq_decide]
    exact decide_eq_decide.mpr eq_comm
  · exact fun h => (slice_beq_iff _ _).mpr h
  · exact (slice_beq_iff _ _).mpr rfl
  · show slice_beq p.view r.view = slice_beq r.view p.view
    rw [slice_beq_eq_decide, slice_beq_eq_decide]
    exact decide_eq_decide.mpr eq_comm
  · exact fun h => (slice_beq_iff _ _).mpr h
  · exact slice_beq_iff _ _
  · exact slice_beq_iff _ _
  · exact slice_beq_iff _ _

/-- Witness for C8: two vectors with different retired slots but the same
live window compare equal. -/
theorem c8_equality_live_window_witness :
    (⟨1, [9, 100]⟩ : ReusingVec Nat).view = (⟨1, [9, 200]⟩ : ReusingVec Nat).view
    ∧ ReusingVec.veq (⟨1, [9, 100]⟩ : ReusingVec Nat) ⟨1, [9, 200]⟩ = true := by
  refine ⟨by decide, ?_⟩
  exact (c8_equality_live_window (⟨1, [9, 100]⟩ : ReusingVec Nat) ⟨1, [9, 200]⟩
    ⟨0, 0, []⟩ ⟨0, 0, []⟩ []).2.2.1 (by decide)

/-- C9: by-value iteration yields exactly the live-window elements in order
(skipping the queue's pre-start retired elements, stopping before the
post-end ones), a finite sequence of length equal to the logical length. -/
theorem c9_into_iter_live_window {T : Type u} (s : ReusingVec T) (q : ReusingQueue T)
    (hs : VInv s) (hq : QInv q) :
    s.into_iter = s.view
    ∧ s.into_iter.length = s.len
    ∧ q.into_iter = q.view
    ∧ q.into_iter.length = q.len := by
  have hqi : q.into_iter = q.view := by
    show (if q.logical_start > 0
        then (q.contents.drop (q.logical_start - 1)).drop 1
        else q.contents).take (q.logical_end - q.logical_start)
      = (q.contents.drop q.logical_start).take (q.logical_end - q.logical_start)
    by_cases h0 : q.logical_start > 0
    · rw [if_pos h0, List.drop_drop,
        show q.logical_start - 1 + 1 = q.logical_start from by omega]
    · rw [if_neg h0, show q.logical_start = 0 from by omega]
      simp
  refine ⟨rfl, ?_, hqi, ?_⟩
  · show s.view.length = s.logical_len
    exact view_length s hs
  · rw [hqi]
    exact qview_length q hq

/-- Witness for C9 at concrete states. -/
theorem c9_into_iter_live_window_witness :
    VInv (⟨2, [4, 5, 6]⟩ : ReusingVec Nat) ∧ QInv (⟨1, 3, [4, 5, 6, 7]⟩ : ReusingQueue Nat)
    ∧ ReusingQueue.into_iter (⟨1, 3, [4, 5, 6, 7]⟩ : ReusingQueue Nat)
      = ReusingQueue.view (⟨1, 3, [4, 5, 6, 7]⟩ : ReusingQueue Nat) := by
  refine ⟨by decide, ⟨by decide, by decide⟩, ?_⟩
  exact (c9_into_iter_live_window (⟨2, [4, 5, 6]⟩ : ReusingVec Nat)
    (⟨1, 3, [4, 5, 6, 7]⟩ : ReusingQueue Nat) (by decide) ⟨by decide, by decide⟩).2.2.1

/-- C10: under the structural invariants, the `usize` subtractions in the
queue's `len`, `truncate`, `pop` and `into_iter` are exact (no underflow),
both containers' slice views are in bounds (their lengths match the logical
length), and the `get_mut` calls inside push and pop always find an element. -/
theorem c10_safety {T : Type u} (s : ReusingVec T) (q : ReusingQueue T)
    (hs : VInv s) (hq : QInv q) :
    q.logical_start + q.len = q.logical_end
    ∧ (0 < q.len → q.logical_end - 1 + 1 = q.logical_end)
    ∧ (0 < q.logical_start → q.logical_start - 1 + 1 = q.logical_start)
    ∧ q.view.length = q.logical_end - q.logical_start
    ∧ s.view.length = s.logical_len
    ∧ (s.logical_len < s.contents.length → (s.contents.get? s.logical_len).isSome)
    ∧ (0 < s.logical_len → (s.contents.get? (s.logical_len - 1)).isSome)
    ∧ (0 < q.len → (q.contents.get? (q.logical_end - 1)).isSome
        ∧ (q.contents.get? q.logical_start).isSome) := by
  obtain ⟨h1, h2⟩ := hq
  refine ⟨?_, ?_, ?_, qview_length q ⟨h1, h2⟩, view_length s hs, ?_, ?_, ?_⟩
  · show q.logical_start + (q.logical_end - q.logical_start) = q.logical_end
    omega
  · intro hp
    have hp' : 0 < q.logical_end - q.logical_start := hp
    omega
  · intro hp
    omega
  · intro hlt
    rw [List.get?_eq_getElem?, List.getElem?_eq_getElem hlt]
    rfl
  · intro hp
    rw [List.get?_eq_getElem?, List.getElem?_eq_getElem (by omega)]
    rfl
  · intro hp
    have hp' : 0 < q.logical_end - q.logical_start := hp
    constructor
    · rw [List.get?_eq_getElem?, List.getElem?_eq_getElem (by omega)]
      rfl
    · rw [List.get?_eq_getElem?, List.getElem?_eq_getElem (by omega)]
      rfl

/-- Witness for C10 at concrete states. -/
theorem c10_safety_witness :
    VInv (⟨2, [4, 5, 6]⟩ : ReusingVec Nat) ∧ QInv (⟨1, 3, [4, 5, 6]⟩ : ReusingQueue Nat)
    ∧ (⟨1, 3, [4, 5, 6]⟩ : ReusingQueue Nat).logical_start
        + (⟨1, 3, [4, 5, 6]⟩ : ReusingQueue Nat).len
      = (⟨1, 3, [4, 5, 6]⟩ : ReusingQueue Nat).logical_end := by
  refine ⟨by decide, ⟨by decide, by decide⟩, ?_⟩
  exact (c10_safety (⟨2, [4, 5, 6]⟩ : ReusingVec Nat)
    (⟨1, 3, [4, 5, 6]⟩ : ReusingQueue Nat) (by decide) ⟨by decide, by decide⟩).1

